import Mathlib

/-!
Verification development for an SLR(1) parsing-table generator
(`src/app.py`).  The Python source is shallowly embedded: Python dicts
become insertion-ordered association lists, Python sets become
insertion-ordered duplicate-free lists (with `List.toFinset` playing the
role of `frozenset` where structural set identity is needed), and the
memoized recursions of `compute_first` / `compute_follow` become explicit
state-passing with a fuel argument bounding the recursion depth (the
Python recursion depth is bounded by the number of grammar keys, because
a memo entry is inserted before every recursive descent).
-/

namespace SLR

/-! ### Text utilities

`get_grammar` works on raw text.  Python's `str.split`, `str.strip` and
`str.split()` are modelled on `List Char` by structural recursion so that
everything reduces in the kernel. -/

/-- Split a character list at every character satisfying `p`, keeping
empty pieces, like Python's `str.split(sep)` for a one-character `sep`. -/
def splitCharList (p : Char → Bool) : List Char → List (List Char)
  | [] => [[]]
  | c :: rest =>
    if p c then [] :: splitCharList p rest
    else
      match splitCharList p rest with
      | [] => [[c]]
      | h :: t => (c :: h) :: t

/-- Split a character list at every (non-overlapping, leftmost-first)
occurrence of the two-character separator `->`, like Python's
`line.split('->')`. -/
def splitArrowList : List Char → List (List Char)
  | [] => [[]]
  | [c] => [[c]]
  | c :: d :: rest =>
    if c = '-' ∧ d = '>' then
      [] :: splitArrowList rest
    else
      match splitArrowList (d :: rest) with
      | [] => [[c]]
      | h :: t => (c :: h) :: t

/-- Strip leading and trailing whitespace, like Python's `str.strip()`. -/
def trimList (l : List Char) : List Char :=
  ((l.dropWhile Char.isWhitespace).reverse.dropWhile Char.isWhitespace).reverse

/-- `str.strip()` on strings. -/
def strTrim (s : String) : String := String.mk (trimList s.data)

/-- `line.split('->')` on strings. -/
def splitArrowStr (s : String) : List String := (splitArrowList s.data).map String.mk

/-- `text.split('\n')` on strings. -/
def splitNl (s : String) : List String :=
  (splitCharList (fun c => c = '\n') s.data).map String.mk

/-- `rhs.split('|')` on strings. -/
def splitBar (s : String) : List String :=
  (splitCharList (fun c => c = '|') s.data).map String.mk

/-- Python's whitespace `str.split()` (no argument): split on whitespace
runs and drop empty pieces. -/
def pySplitWs (s : String) : List String :=
  ((splitCharList Char.isWhitespace s.data).filter (fun l => decide (l ≠ []))).map String.mk

/-! ### Grammar model

A Python dict `{lhs: [alternative, ...]}` in insertion order. -/

/-- An alternative (one right-hand side): a list of symbol strings. -/
abbrev Rhs := List String

/-- Grammar: insertion-ordered association list from nonterminal to its
ordered alternatives, the embedding of the Python dict built by
`get_grammar`. -/
abbrev Grammar := List (String × List Rhs)

/-- Association-list lookup (Python `d[k]` / `k in d`). -/
def lookupG : Grammar → String → Option (List Rhs)
  | [], _ => none
  | (k2, v2) :: rest, k => if k2 = k then some v2 else lookupG rest k

/-- The keys of the grammar dict, in insertion order. -/
def keysG (g : Grammar) : List String := g.map Prod.fst

/-- `grammar[lhs].extend(rhs_productions)` when `lhs` is present,
`grammar[lhs] = rhs_productions` otherwise (Python dict insertion keeps
the original position of an existing key and appends a new key). -/
def insertProds : Grammar → String → List Rhs → Grammar
  | [], k, v => [(k, v)]
  | (k2, v2) :: rest, k, v =>
    if k2 = k then (k2, v2 ++ v) :: rest else (k2, v2) :: insertProds rest k v

/-- Outcome of `get_grammar`: a parsed grammar, the handled
missing-separator case (the Python code shows a sidebar error and returns
`None`), or the unhandled `ValueError` raised by the two-target unpacking
`lhs, rhs = line.split('->')` when the separator occurs more than once. -/
inductive ParseOutcome where
  | ok (g : Grammar)
  | invalidRule (line : String)
  | valueError
deriving DecidableEq

/-- `[prod.strip().split() for prod in rhs.split('|')]`. -/
def parseRhs (rhs : String) : List Rhs :=
  (splitBar rhs).map (fun p => pySplitWs (strTrim p))

/-- The line loop of `get_grammar`.  A line with no `->` returns the
error outcome immediately; a line whose `split('->')` has more than two
pieces raises `ValueError`. -/
def processLines : List String → Grammar → ParseOutcome
  | [], acc => .ok acc
  | line :: rest, acc =>
    match splitArrowStr line with
    | [_] => .invalidRule line
    | [lhs, rhs] => processLines rest (insertProds acc (strTrim lhs) (parseRhs rhs))
    | _ => .valueError

/-- The lines of the input, Python `grammar_text.strip().split("\n")`. -/
def linesOf (text : String) : List String := splitNl (String.mk (trimList text.data))

/-- Embedding of `get_grammar` (src/app.py lines 14-32). -/
def get_grammar (text : String) : ParseOutcome := processLines (linesOf text) []

/-! ### Augmentation -/

/-- The synthetic start symbol, Python literal `S'`. -/
def augStart : String := String.mk ['S', Char.ofNat 39]

/-- Python dict assignment `d[k] = v`: replace in place or append. -/
def dictSet : Grammar → String → List Rhs → Grammar
  | [], k, v => [(k, v)]
  | (k2, v2) :: rest, k, v =>
    if k2 = k then (k2, v) :: rest else (k2, v2) :: dictSet rest k v

/-- Python `d.update(src)`: assign every entry of `src` into `d` in
`src`'s order. -/
def dictUpdate (d src : Grammar) : Grammar :=
  src.foldl (fun d kv => dictSet d kv.1 kv.2) d

/-- Embedding of `augment_grammar` (src/app.py lines 41-49): `none` models
the `st.error` + `st.stop()` abort.  The source's guard is
`if not start_symbol:` — Python truthiness — so it fires both when the
dict is empty (`next(iter(grammar), None)` returns `None`) and when the
first key is the falsy empty string (reachable from the input line
`-> a`, whose stripped left-hand side is `""`). -/
def augment_grammar (g : Grammar) : Option Grammar :=
  match g with
  | [] => none
  | (k, _) :: _ =>
    if k = ("") then none else some (dictUpdate [(augStart, [[k]])] g)

/-! ### LR(0) items, closure, goto

A Python item is the tuple `(lhs, rhs, dot_pos)`.  A Python item *set* is
modelled as a duplicate-free list in discovery order; set iteration order
in CPython is unspecified, so the list order stands in for one concrete
iteration order, and every property proved below is independent of it.
`frozenset` identity (structural set equality) is `List.toFinset`. -/

/-- An LR(0) item `(lhs, rhs, dot_pos)`. -/
abbrev Item := String × List String × Nat

/-- An item set, as an insertion-ordered duplicate-free list. -/
abbrev ItemList := List Item

/-- The symbol immediately after the dot, if the dot is not at the end. -/
def nextSymbol (it : Item) : Option String :=
  if it.2.2 < it.2.1.length then some (it.2.1.getD it.2.2 ("")) else none

/-- The items `(symbol, production, 0)` contributed by one item whose dot
stands before the nonterminal `symbol` (the inner loop of `closure`). -/
def expansions (g : Grammar) (it : Item) : List Item :=
  match nextSymbol it with
  | none => []
  | some sym =>
    match lookupG g sym with
    | none => []
    | some prods => prods.map (fun p => (sym, p, 0))

/-- One pass of the `while added` loop of `closure`: the genuinely new
items discovered from the current set. -/
def closureNew (g : Grammar) (S : ItemList) : ItemList :=
  (((S.map (expansions g)).flatten).filter (fun x => decide (x ∉ S))).dedup

/-- The `while added` loop, with explicit fuel. -/
def closureAux (g : Grammar) : Nat → ItemList → ItemList
  | 0, S => S
  | n + 1, S =>
    let ns := closureNew g S
    if ns = [] then S else closureAux g n (S ++ ns)

/-- Total number of productions of the grammar; one more than this bounds
the number of passes `closure` can make, because every pass adds at least
one item of the form `(N, production, 0)`. -/
def totalProds (g : Grammar) : Nat := (g.map (fun kv => kv.2.length)).sum

/-- Embedding of `closure` (src/app.py lines 54-70). -/
def closure (g : Grammar) (S : ItemList) : ItemList :=
  closureAux g (totalProds g + 1) S

/-- The dot-advanced items of `goto`: every item whose symbol after the
dot is `sym`, with the dot moved one position right. -/
def shifted (S : ItemList) (sym : String) : ItemList :=
  (S.filter (fun it => decide (nextSymbol it = some sym))).map
    (fun it => (it.1, it.2.1, it.2.2 + 1))

/-- Embedding of `goto` (src/app.py lines 73-78). -/
def goto (g : Grammar) (S : ItemList) (sym : String) : ItemList :=
  if shifted S sym = [] then [] else closure g (shifted S sym)

/-- The dot-0 items `(N, production, 0)` over all productions — the only
items `closure` can ever add, which bounds its pass count. -/
def initialItems (g : Grammar) : List Item :=
  (g.map (fun kv => kv.2.map (fun p => (kv.1, p, 0)))).flatten

/-- An item list closed under the closure expansion step. -/
def closedUnder (g : Grammar) (T : ItemList) : Prop :=
  ∀ it ∈ T, ∀ x ∈ expansions g it, x ∈ T

/-- The number of closure candidates not yet collected — the decreasing
measure of the `while added` loop. -/
def closureMeasure (g : Grammar) (S : ItemList) : Nat :=
  ((initialItems g).toFinset \ S.toFinset).card

/-! ### The LR(0) worklist construction -/

/-- The mutable state of `generate_lr0_items`: the states list, the
`state_indices` dict keyed by `frozenset`, the `transitions` dict and the
breadth-first queue. -/
structure LrState where
  states : List ItemList
  indices : List (Finset Item × Nat)
  transitions : List ((Nat × String) × Nat)
  queue : List ItemList
deriving DecidableEq

/-- Generic association-list lookup for dict embeddings. -/
def alistLookup {κ β : Type} [DecidableEq κ] : List (κ × β) → κ → Option β
  | [], _ => none
  | (k2, v2) :: rest, k => if k2 = k then some v2 else alistLookup rest k

/-- Python dict assignment `d[k] = v` on an association list: replace the
value in place if the key exists, append otherwise. -/
def alistSet {κ β : Type} [DecidableEq κ] : List (κ × β) → κ → β → List (κ × β)
  | [], k, v => [(k, v)]
  | (k2, v2) :: rest, k, v =>
    if k2 = k then (k2, v) :: rest else (k2, v2) :: alistSet rest k v

/-- `{rhs[pos] for lhs, rhs, pos in state if pos < len(rhs)}` — the
symbols appearing right after a dot, deduplicated, in first-occurrence
order (standing in for CPython's unspecified set iteration order). -/
def dotSymbols (S : ItemList) : List String := (S.filterMap nextSymbol).dedup

/-- The body of the `for symbol in symbols` loop of `generate_lr0_items`:
compute `goto`, reuse an existing structurally equal state or append a
new one, and record the transition. -/
def processSym (g : Grammar) (curIdx : Nat) (cur : ItemList) (st : LrState)
    (sym : String) : LrState :=
  match alistLookup st.indices (goto g cur sym).toFinset with
  | some i => { st with transitions := alistSet st.transitions (curIdx, sym) i }
  | none =>
    { states := st.states ++ [goto g cur sym]
      indices := st.indices ++ [((goto g cur sym).toFinset, st.states.length)]
      transitions := alistSet st.transitions (curIdx, sym) st.states.length
      queue := st.queue ++ [goto g cur sym] }

/-- The `while queue` loop of `generate_lr0_items`, with explicit fuel. -/
def bfsLoop (g : Grammar) : Nat → LrState → LrState
  | 0, st => st
  | n + 1, st =>
    match st.queue with
    | [] => st
    | cur :: rest =>
      let curIdx := (alistLookup st.indices cur.toFinset).getD 0
      let st2 := (dotSymbols cur).foldl (processSym g curIdx cur) { st with queue := rest }
      bfsLoop g n st2

/-- The initial item `(start_symbol, augmented_grammar[start_symbol][0], 0)`. -/
def initItem (g : Grammar) : Item :=
  match g with
  | [] => ((""), [], 0)
  | (n, ps) :: _ => (n, ps.headD [], 0)

/-- `closure({initial_item}, augmented_grammar)` — the contents of state 0. -/
def initState (g : Grammar) : ItemList := closure g [initItem g]

/-- Every item the algorithm can ever construct for grammar `g`: a
production of `g` with any dot position.  Distinct states are distinct
subsets of this universe, which bounds the number of loop iterations. -/
def itemUniverse (g : Grammar) : Finset Item :=
  ((g.map (fun kv =>
      (kv.2.map (fun p => (List.range (p.length + 1)).map (fun d => (kv.1, p, d)))).flatten)).flatten).toFinset

/-- Fuel sufficient for the worklist loop to drain its queue: each
iteration pops one queue entry, and entries are only ever enqueued for
freshly discovered states, of which there are at most
`2 ^ (itemUniverse g).card`. -/
def lrFuel (g : Grammar) : Nat := 2 * 2 ^ (itemUniverse g).card + 2

/-- Embedding of `generate_lr0_items` (src/app.py lines 81-109). -/
def generate_lr0_items (g : Grammar) : LrState :=
  let s0 := initState g
  bfsLoop g (lrFuel g) ⟨[s0], [(s0.toFinset, 0)], [], [s0]⟩

/-- The `state_indices` dict that corresponds exactly to a states list:
the `frozenset` of each state mapped to its position. -/
def idxMap : Nat → List ItemList → List (Finset Item × Nat)
  | _, [] => []
  | n, s :: rest => (s.toFinset, n) :: idxMap (n + 1) rest

/-- The loop invariant of the worklist construction. -/
structure LrInv (g : Grammar) (st : LrState) : Prop where
  idxOK : st.indices = idxMap 0 st.states
  nodupF : (st.states.map List.toFinset).Nodup
  subU : ∀ S ∈ st.states, ∀ it ∈ S, it ∈ itemUniverse g
  queueSub : ∀ q ∈ st.queue, q ∈ st.states
  closedDone : ∀ S ∈ st.states, S ∉ st.queue →
    ∀ sym ∈ dotSymbols S, ∃ T ∈ st.states, T.toFinset = (goto g S sym).toFinset
  keysND : (st.transitions.map Prod.fst).Nodup
  initMem : initState g ∈ st.states

/-- The invariant while the popped state `cur` is still being processed:
as `LrInv`, except that `cur` is exempted from the processed-state
obligation. -/
structure LrInvMid (g : Grammar) (cur : ItemList) (st : LrState) : Prop where
  idxOK : st.indices = idxMap 0 st.states
  nodupF : (st.states.map List.toFinset).Nodup
  subU : ∀ S ∈ st.states, ∀ it ∈ S, it ∈ itemUniverse g
  queueSub : ∀ q ∈ st.queue, q ∈ st.states
  closedDone : ∀ S ∈ st.states, S ∉ st.queue → S = cur ∨
    ∀ sym ∈ dotSymbols S, ∃ T ∈ st.states, T.toFinset = (goto g S sym).toFinset
  keysND : (st.transitions.map Prod.fst).Nodup
  initMem : initState g ∈ st.states
  curMem : cur ∈ st.states

/-! ### FIRST and FOLLOW

The Python functions are memoized recursions over a module-level dict
whose values are mutable sets, updated in place while the computation for
a symbol is still running; a recursive call that hits the memo observes
the partial set built so far.  The embedding threads the memo explicitly;
values are insertion-ordered duplicate-free lists.  The fuel bounds the
recursion depth: every nested call targets a symbol not yet in the memo
and inserts it before descending, so the depth never exceeds the number
of grammar keys plus one. -/

/-- The memo dict of `compute_first` / `compute_follow`. -/
abbrev SetMemo := List (String × List String)

/-- The literal epsilon marker string used by the source. -/
def epsStr : String := "ε"

/-- The end-marker. -/
def dollarStr : String := "$"

/-- Set union preserving the insertion order of the left operand, the
value-level picture of Python's `set.update`. -/
def setAdd (a b : List String) : List String :=
  a ++ (b.dedup.filter (fun x => decide (x ∉ a)))

/-- `memo[k].update(vs)` — grow the (present) entry for `k` in place. -/
def memoAdd (σ : SetMemo) (k : String) (vs : List String) : SetMemo :=
  alistSet σ k (setAdd ((alistLookup σ k).getD []) vs)

/-- `memo[k] = set()`. -/
def memoInit (σ : SetMemo) (k : String) : SetMemo := alistSet σ k []

/-- `grammar.get(symbol, [])`. -/
def prodsOfG (g : Grammar) (symbol : String) : List Rhs :=
  (lookupG g symbol).getD []

/-- The Python `next(iter(grammar))` start symbol. -/
def firstKey (g : Grammar) : String := (g.headD (("") , [])).1

/-- The `for sub_symbol in production` walk of `compute_first`, with the
one-level-deeper recursion passed in as `rec`.  The `[]` case is Python's
`for ... else` branch: the walk ran off the end without `break`, so the
production is nullable and `ε` is added. -/
def firstWalk (g : Grammar) (rec : String → SetMemo → List String × SetMemo)
    (symbol : String) : List String → SetMemo → SetMemo
  | [], σ => memoAdd σ symbol [epsStr]
  | sub :: rest, σ =>
    if (lookupG g sub).isSome then
      let r := rec sub σ
      let σ2 := memoAdd r.2 symbol (r.1.filter (fun x => decide (x ≠ epsStr)))
      if epsStr ∈ r.1 then firstWalk g rec symbol rest σ2 else σ2
    else memoAdd σ symbol [sub]

/-- Embedding of `compute_first` (src/app.py lines 115-136): memoized
recursion, returning the set for `symbol` together with the updated memo. -/
def compute_first (g : Grammar) : Nat → String → SetMemo → List String × SetMemo
  | 0, _, σ => ([], σ)
  | fuel + 1, symbol, σ =>
    match alistLookup σ symbol with
    | some v => (v, σ)
    | none =>
      let σ1 := memoInit σ symbol
      let σ2 := (prodsOfG g symbol).foldl
        (fun σ p =>
          if p = [("")] then memoAdd σ symbol [epsStr]
          else firstWalk g (fun s t => compute_first g fuel s t) symbol p σ) σ1
      ((alistLookup σ2 symbol).getD [], σ2)

/-- The module-level `for nt in grammar: compute_first(nt)` loop
(src/app.py lines 138-139): the final `first` dict. -/
def first_map (g : Grammar) : SetMemo :=
  g.foldl (fun σ kv => (compute_first g (g.length + 1) kv.1 σ).2) []

/-- The `for i, sub_symbol in enumerate(rhs)` scan of `compute_follow`
over one right-hand side, with the recursion passed in as `rec`.  The
scan sees the rest of the production, so the element after the current
one is available by pattern matching. -/
def followWalk (g : Grammar) (firstM : SetMemo)
    (rec : String → SetMemo → List String × SetMemo)
    (symbol lhs : String) : List String → SetMemo → SetMemo
  | [], σ => σ
  | x :: rest, σ =>
    let σ1 :=
      if x = symbol then
        match rest with
        | next :: _ =>
          if (lookupG g next).isNone then memoAdd σ symbol [next]
          else
            let nf := (alistLookup firstM next).getD []
            let σa := memoAdd σ symbol (nf.filter (fun s => decide (s ≠ epsStr)))
            if epsStr ∈ nf then
              let r := rec lhs σa
              memoAdd r.2 symbol r.1
            else σa
        | [] =>
          if lhs ≠ symbol then
            let r := rec lhs σ
            memoAdd r.2 symbol r.1
          else σ
      else σ
    followWalk g firstM rec symbol lhs rest σ1

/-- Embedding of `compute_follow` (src/app.py lines 143-168): memoized
recursion over the finished `first` dict. -/
def compute_follow (g : Grammar) (firstM : SetMemo) :
    Nat → String → SetMemo → List String × SetMemo
  | 0, _, σ => ([], σ)
  | fuel + 1, symbol, σ =>
    match alistLookup σ symbol with
    | some v => (v, σ)
    | none =>
      let σ1 := memoInit σ symbol
      let σ2 := if symbol = firstKey g then memoAdd σ1 symbol [dollarStr] else σ1
      let σ3 := g.foldl
        (fun σ kv =>
          kv.2.foldl
            (fun σ rhs =>
              followWalk g firstM (fun s t => compute_follow g firstM fuel s t)
                symbol kv.1 rhs σ) σ) σ2
      ((alistLookup σ3 symbol).getD [], σ3)

/-- The module-level `for nt in grammar: compute_follow(nt)` loop
(src/app.py lines 170-171): the final `follow` dict. -/
def follow_map (g : Grammar) (firstM : SetMemo) : SetMemo :=
  g.foldl (fun σ kv => (compute_follow g firstM (g.length + 1) kv.1 σ).2) []

/-! ### The SLR(1) table builder -/

/-- A table action.  The source stores strings (`"S3"`, `"R(lhs → rhs)"`,
`"ACC"`); the three constructors are in bijection with those strings
(shift carries the target state number, reduce the production). -/
inductive Action where
  | shift (n : Nat)
  | reduce (lhs : String) (rhs : List String)
  | accept
deriving DecidableEq

/-- The action table: Python's nested dict `parsing_table[state][symbol]`,
flattened to one dict keyed by the (state, symbol) pair, with the same
last-writer-wins assignment semantics. -/
abbrev ActionTable := List ((Nat × String) × Action)

/-- The goto table, flattened the same way. -/
abbrev GotoTable := List ((Nat × String) × Nat)

/-- Embedding of `generate_slr1_parsing_table` (src/app.py lines 174-193):
first the transition pass writing shifts and gotos, then the completed-item
pass writing accept and reduce actions over `follow[lhs]`.  Every write is
a plain dict assignment: a second write to the same cell silently
overwrites the first, and no conflict information is produced or returned. -/
def generate_slr1_parsing_table (states : List ItemList)
    (transitions : List ((Nat × String) × Nat)) (g : Grammar)
    (followM : SetMemo) : ActionTable × GotoTable :=
  let step1 := transitions.foldl
    (fun (acc : ActionTable × GotoTable) e =>
      if (lookupG g e.1.2).isSome then (acc.1, alistSet acc.2 e.1 e.2)
      else (alistSet acc.1 e.1 (.shift e.2), acc.2))
    ([], [])
  let pt := (states.enum).foldl
    (fun pt p =>
      p.2.foldl
        (fun pt it =>
          if it.2.2 = it.2.1.length then
            if it.1 = augStart then alistSet pt (p.1, dollarStr) .accept
            else
              ((alistLookup followM it.1).getD []).foldl
                (fun pt t => alistSet pt (p.1, t) (.reduce it.1 it.2.1)) pt
          else pt) pt)
    step1.1
  (pt, step1.2)

/-! ### Specification-side definitions

The spec (§4.3) states the FIRST / FOLLOW equations as least-fixpoint
conditions.  The predicates below transcribe those equations; they are
used to compare the code's memoized computation with the spec, and are
deliberately *not* derived from the source. -/

/-- Spec FIRST of a single symbol: `{X}` for a terminal, `F X` for a
nonterminal. -/
def symFirstSpec (g : Grammar) (F : String → Finset String) (X : String) : Finset String :=
  if (lookupG g X).isSome then F X else {X}

/-- Spec FIRST of a symbol sequence: walk the sequence, union
`FIRST(Xi) − {ε}`, stop at the first non-nullable symbol, keep `ε` only
if every symbol is nullable. -/
def firstSeqSpec (g : Grammar) (F : String → Finset String) : List String → Finset String
  | [] => {epsStr}
  | X :: rest =>
    if epsStr ∈ symFirstSpec g F X then
      ((symFirstSpec g F X).erase epsStr) ∪ firstSeqSpec g F rest
    else symFirstSpec g F X

/-- The FIRST-equation obligations of one production `N -> X1 ... Xk`
(spec §4.3): walking the Xi, each prefix of nullable symbols contributes
`FIRST(Xi) − {ε} ⊆ FIRST(N)`, and if the walk exhausts the production,
`ε ∈ FIRST(N)`. -/
def prodFirstOK (g : Grammar) (F : String → Finset String) (N : String) :
    List String → Prop
  | [] => epsStr ∈ F N
  | X :: rest =>
    (symFirstSpec g F X).erase epsStr ⊆ F N ∧
      (epsStr ∈ symFirstSpec g F X → prodFirstOK g F N rest)

instance instDecProdFirstOK (g : Grammar) (F : String → Finset String) (N : String) :
    (l : List String) → Decidable (prodFirstOK g F N l)
  | [] => inferInstanceAs (Decidable (epsStr ∈ F N))
  | _ :: rest =>
    have := instDecProdFirstOK g F N rest
    inferInstanceAs (Decidable (_ ∧ _))

/-- `F` satisfies the FIRST equations of the spec for every production. -/
def firstEquationsHold (g : Grammar) (F : String → Finset String) : Prop :=
  ∀ kv ∈ g, ∀ p ∈ kv.2, prodFirstOK g F kv.1 p

instance (g : Grammar) (F : String → Finset String) :
    Decidable (firstEquationsHold g F) :=
  inferInstanceAs (Decidable (∀ kv ∈ g, ∀ p ∈ kv.2, prodFirstOK g F kv.1 p))

/-- The FOLLOW-equation obligations contributed by one production
`N -> α X β`, walking the right-hand side (spec §4.3): for every
nonterminal occurrence `X` with tail `β`, `FIRST(β) − {ε} ⊆ FOLLOW(X)`,
and if `β` is empty or nullable, `FOLLOW(N) ⊆ FOLLOW(X)`. -/
def prodFollowOK (g : Grammar) (F FL : String → Finset String) (N : String) :
    List String → Prop
  | [] => True
  | X :: rest =>
    (if (lookupG g X).isSome then
      (firstSeqSpec g F rest).erase epsStr ⊆ FL X ∧
        (epsStr ∈ firstSeqSpec g F rest → FL N ⊆ FL X)
    else True) ∧ prodFollowOK g F FL N rest

instance instDecProdFollowOK (g : Grammar) (F FL : String → Finset String)
    (N : String) : (l : List String) → Decidable (prodFollowOK g F FL N l)
  | [] => inferInstanceAs (Decidable True)
  | _ :: rest =>
    have := instDecProdFollowOK g F FL N rest
    inferInstanceAs (Decidable (_ ∧ _))

/-- `FL` satisfies the FOLLOW equations of the spec (given FIRST map `F`):
`$ ∈ FOLLOW(start)` and every production's obligations hold. -/
def followEquationsHold (g : Grammar) (F FL : String → Finset String) : Prop :=
  dollarStr ∈ FL (firstKey g) ∧ ∀ kv ∈ g, ∀ p ∈ kv.2, prodFollowOK g F FL kv.1 p

instance (g : Grammar) (F FL : String → Finset String) :
    Decidable (followEquationsHold g F FL) :=
  inferInstanceAs (Decidable (_ ∧ ∀ kv ∈ g, ∀ p ∈ kv.2, prodFollowOK g F FL kv.1 p))

/-- A memo dict read back as a set-valued function. -/
def memoFun (σ : SetMemo) : String → Finset String :=
  fun s => ((alistLookup σ s).getD []).toFinset

/-- The alternatives that the parser's duplicate-LHS merge should produce
for `name`: the parsed right-hand sides of every well-formed line whose
(stripped) left-hand side is `name`, concatenated in line order. -/
def mergedAlts (lines : List String) (name : String) : List Rhs :=
  (lines.filterMap (fun l =>
    match splitArrowStr l with
    | [lhs, rhs] => if strTrim lhs = name then some (parseRhs rhs) else none
    | _ => none)).flatten

/-- States reachable from state 0 by iterating `goto` on symbols after a
dot, the reachability notion of spec §4.2 over the canonical
representatives that the algorithm's own functions construct. -/
inductive ReachesL (g : Grammar) : ItemList → Prop
  | base : ReachesL g (initState g)
  | step : ∀ S sym, ReachesL g S → sym ∈ dotSymbols S → ReachesL g (goto g S sym)

/-! ### Concrete grammars used by the claims -/

/-- The shift/reduce-conflict grammar of C1, `E -> E + E | id`. -/
def g1 : Grammar := [(("E"), [[("E"), ("+"), ("E")], [("id")]])]

/-- `g1` augmented. -/
def ag1 : Grammar := (augStart, [[("E")]]) :: g1

/-- The automaton of `ag1`. -/
def lr1 : LrState := generate_lr0_items ag1

/-- The SLR(1) table of `g1`. -/
def table1 : ActionTable × GotoTable :=
  generate_slr1_parsing_table lr1.states lr1.transitions g1
    (follow_map g1 (first_map g1))

/-- The mutually recursive grammar of C2, `A -> B | a`, `B -> A | b`. -/
def g2 : Grammar := [(("A"), [[("B")], [("a")]]), (("B"), [[("A")], [("b")]])]

/-- The true FIRST sets of `g2`: `FIRST(A) = FIRST(B) = {a, b}`
(constant on nonterminals; only consulted at nonterminals). -/
def specFirst2 : String → Finset String := fun _ => insert ("a") {("b")}

/-- The follow-cycle grammar of C3. -/
def g3 : Grammar :=
  [(("S"), [[("A")], [("C")]]), (("A"), [[("B")]]),
   (("B"), [[("A")], [("b")]]), (("C"), [[("A"), ("c")]])]

/-- The true FIRST sets of `g3`: every nonterminal derives strings
starting with `b` only. -/
def specFirst3 : String → Finset String := fun _ => {("b")}

/-- The true FOLLOW sets of `g3`: `FOLLOW(A) = FOLLOW(B) = {$, c}`,
`FOLLOW(S) = FOLLOW(C) = {$}`. -/
def specFollow3 : String → Finset String :=
  fun s => if s = ("A") ∨ s = ("B") then insert dollarStr {("c")} else {dollarStr}

/-- The nullable grammar of C4 with the epsilon alternative written as the
literal `ε` token, exactly as the sidebar example instructs. -/
def g4 : Grammar :=
  [(("S"), [[("A"), ("B")]]), (("A"), [[("a")], [("ε")]]), (("B"), [[("b")]])]

/-- `g4` augmented. -/
def ag4 : Grammar := (augStart, [[("S")]]) :: g4

/-- The automaton of `ag4`. -/
def lr4 : LrState := generate_lr0_items ag4

/-- The SLR(1) table of `g4`. -/
def table4 : ActionTable × GotoTable :=
  generate_slr1_parsing_table lr4.states lr4.transitions g4
    (follow_map g4 (first_map g4))

/-- The grammar whose only nonterminal is already called `S'`,
the C5 counterexample. -/
def g5 : Grammar := [(augStart, [[("a")]])]

/-! ## Theorems

### The grammar parser (C8, C9, C10) -/

/-- C9: on input containing a line with more than one `->` separator, the
parser hits the two-target unpacking `lhs, rhs = line.split('->')` with
three pieces and raises an unhandled `ValueError`, rather than returning a
grammar or reporting a descriptive error. -/
theorem get_grammar_double_sep_value_error :
    get_grammar ("A -> b -> c") = ParseOutcome.valueError := by decide

/-- If every line before `bad` splits into exactly an LHS and an RHS and
`bad` contains no `->`, the line loop reports `bad` and returns no
grammar. -/
theorem processLines_reaches_bad :
    ∀ (pre : List String) (bad : String) (post : List String) (acc : Grammar),
      (∀ l ∈ pre, (splitArrowStr l).length = 2) →
      (splitArrowStr bad).length = 1 →
      processLines (pre ++ bad :: post) acc = ParseOutcome.invalidRule bad := by
  intro pre
  induction pre with
  | nil =>
    intro bad post acc _ hbad
    obtain ⟨x, hx⟩ := List.length_eq_one.mp hbad
    simp [processLines, hx]
  | cons l pre ih =>
    intro bad post acc hpre hbad
    have hl : (splitArrowStr l).length = 2 := hpre l (List.mem_cons_self l pre)
    obtain ⟨a, b, hab⟩ := List.length_eq_two.mp hl
    simp only [List.cons_append, processLines, hab]
    exact ih bad post _ (fun x hx => hpre x (List.mem_cons_of_mem l hx)) hbad

/-- C8 (amended): for every input text in which some line lacks the `->`
separator and every earlier line contains the separator exactly once, the
parser reports that line as a descriptive error and returns no grammar at
all (`None`), so no partial grammar is built.  (The original unconditional
claim fails when an earlier line contains `->` twice: the loop then raises
`ValueError` before reaching the separator-less line, see the
counterexample.) -/
theorem get_grammar_missing_sep_rejected (text : String) (pre : List String)
    (bad : String) (post : List String)
    (hdecomp : linesOf text = pre ++ bad :: post)
    (hpre : ∀ l ∈ pre, (splitArrowStr l).length = 2)
    (hbad : (splitArrowStr bad).length = 1) :
    get_grammar text = ParseOutcome.invalidRule bad := by
  unfold get_grammar
  rw [hdecomp]
  exact processLines_reaches_bad pre bad post [] hpre hbad

/-- Witness for C8 (amended): the two-line input `A -> b` / `X` is
rejected with line `X` reported. -/
theorem get_grammar_missing_sep_rejected_witness :
    get_grammar ("A -> b\nX") = ParseOutcome.invalidRule ("X") :=
  get_grammar_missing_sep_rejected ("A -> b\nX") [("A -> b")] ("X") []
    (by decide) (by decide) (by decide)

/-- Counterexample to C8 as stated: the input `A -> b -> c` / `X` has a
line (`X`) lacking the separator, yet the parser does not report it and
return `None` — it raises an unhandled `ValueError` at the earlier line
before ever reaching `X`. -/
theorem get_grammar_missing_sep_cex :
    ((splitArrowStr ("X")).length = 1) ∧
      (("X") ∈ linesOf ("A -> b -> c\nX")) ∧
      get_grammar ("A -> b -> c\nX") = ParseOutcome.valueError := by decide

/-- Looking up the key just merged into the grammar dict yields the old
alternatives extended with the new ones. -/
theorem lookupG_insertProds_self (acc : Grammar) (k : String) (v : List Rhs) :
    lookupG (insertProds acc k v) k = some ((lookupG acc k).getD [] ++ v) := by
  induction acc with
  | nil => simp [insertProds, lookupG]
  | cons kv rest ih =>
    obtain ⟨k2, v2⟩ := kv
    by_cases h : k2 = k
    · subst h
      simp [insertProds, lookupG]
    · simp [insertProds, lookupG, h, ih]

/-- Merging one key leaves every other key's alternatives unchanged. -/
theorem lookupG_insertProds_other (acc : Grammar) (k : String) (v : List Rhs)
    (k2 : String) (h : k2 ≠ k) :
    lookupG (insertProds acc k v) k2 = lookupG acc k2 := by
  have hne : k ≠ k2 := fun hh => h hh.symm
  induction acc with
  | nil => simp [insertProds, lookupG, hne]
  | cons kv rest ih =>
    obtain ⟨k3, v3⟩ := kv
    by_cases h3 : k3 = k
    · subst h3
      simp [insertProds, lookupG, hne]
    · simp [insertProds, lookupG, h3, ih]

/-- Unfolding `mergedAlts` over a well-formed head line. -/
theorem mergedAlts_cons₂ (line : String) (rest : List String) (name : String)
    (lhs rhs : String) (h : splitArrowStr line = [lhs, rhs]) :
    mergedAlts (line :: rest) name =
      (if strTrim lhs = name then parseRhs rhs else []) ++ mergedAlts rest name := by
  unfold mergedAlts
  rw [List.filterMap_cons, h]
  by_cases hn : strTrim lhs = name <;> simp [hn]

/-- The line loop accumulates, for every key, the accumulator's
alternatives followed by the parsed alternatives of the key's lines in
input order. -/
theorem processLines_merge :
    ∀ (lines : List String) (acc g : Grammar),
      processLines lines acc = ParseOutcome.ok g →
      ∀ name alts, lookupG g name = some alts →
        alts = (lookupG acc name).getD [] ++ mergedAlts lines name := by
  intro lines
  induction lines with
  | nil =>
    intro acc g hok name alts halts
    cases hok
    simp [mergedAlts, halts]
  | cons line rest ih =>
    intro acc g hok name alts halts
    match hsplit : splitArrowStr line with
    | [x] =>
      rw [processLines, hsplit] at hok
      cases hok
    | [lhs, rhs] =>
      rw [processLines, hsplit] at hok
      have step := ih _ g hok name alts halts
      rw [step, mergedAlts_cons₂ line rest name lhs rhs hsplit]
      by_cases hname : strTrim lhs = name
      · subst hname
        rw [lookupG_insertProds_self]
        simp [List.append_assoc]
      · rw [lookupG_insertProds_other _ _ _ _ (fun hh => hname hh.symm)]
        simp [hname]
    | [] =>
      rw [processLines, hsplit] at hok
      cases hok
    | x :: y :: z :: w =>
      rw [processLines, hsplit] at hok
      cases hok

/-- C10: when the same nonterminal appears as the left-hand side of more
than one line, the parser merges the lines: every key of a successfully
parsed grammar maps to the concatenation, in input-line order, of the
alternatives of all lines with that left-hand side — later lines are
appended after earlier ones, never replacing them and never rejected. -/
theorem get_grammar_merges_duplicate_lhs (text : String) (g : Grammar)
    (h : get_grammar text = ParseOutcome.ok g) :
    ∀ name alts, lookupG g name = some alts →
      alts = mergedAlts (linesOf text) name := by
  intro name alts halts
  have := processLines_merge (linesOf text) [] g h name alts halts
  simpa [lookupG] using this

/-- Witness for C10: `A -> a` then `A -> b` parses to the single entry
`A ↦ [[a], [b]]`, and the merge description holds for it. -/
theorem get_grammar_merges_duplicate_lhs_witness :
    get_grammar ("A -> a\nA -> b") = ParseOutcome.ok [(("A"), [[("a")], [("b")]])] ∧
      (∀ name alts, lookupG [(("A"), [[("a")], [("b")]])] name = some alts →
        alts = mergedAlts (linesOf ("A -> a\nA -> b")) name) :=
  ⟨by decide, get_grammar_merges_duplicate_lhs ("A -> a\nA -> b") _ (by decide)⟩

/-! ### Augmentation (C5) -/

/-- Assigning an absent key appends it. -/
theorem dictSet_absent (d : Grammar) (k : String) (v : List Rhs)
    (h : k ∉ keysG d) : dictSet d k v = d ++ [(k, v)] := by
  induction d with
  | nil => simp [dictSet]
  | cons kv rest ih =>
    obtain ⟨k2, v2⟩ := kv
    have hne : k2 ≠ k := by
      intro hh
      exact h (by simp [keysG, hh])
    have hrest : k ∉ keysG rest := by
      intro hh
      exact h (by simp [keysG] at hh ⊢; exact Or.inr hh)
    simp [dictSet, hne, ih hrest]

/-- `d.update(src)` with fresh, duplicate-free keys is concatenation. -/
theorem dictUpdate_disjoint :
    ∀ (src d : Grammar), (∀ k ∈ keysG src, k ∉ keysG d) → (keysG src).Nodup →
      dictUpdate d src = d ++ src := by
  intro src
  induction src with
  | nil => intro d _ _; simp [dictUpdate]
  | cons kv rest ih =>
    intro d hdisj hnodup
    obtain ⟨k, v⟩ := kv
    have hkeys : keysG ((k, v) :: rest) = k :: keysG rest := rfl
    rw [hkeys] at hdisj hnodup
    have hk : k ∉ keysG d := hdisj k (List.mem_cons_self k _)
    have hnd := List.nodup_cons.mp hnodup
    have hstep : dictUpdate d ((k, v) :: rest) = dictUpdate (d ++ [(k, v)]) rest := by
      simp [dictUpdate, dictSet_absent d k v hk]
    rw [hstep, ih (d ++ [(k, v)])]
    · simp
    · intro k2 hk2 hmem
      have hsplit2 : keysG (d ++ [(k, v)]) = keysG d ++ [k] := by simp [keysG]
      rw [hsplit2] at hmem
      rcases List.mem_append.mp hmem with hd | hkk
      · exact hdisj k2 (List.mem_cons_of_mem k hk2) hd
      · have hk2k : k2 = k := by simpa using hkk
        subst hk2k
        exact hnd.1 hk2
    · exact hnd.2

/-- C5 (amended): for every non-empty grammar dict whose start
nonterminal is not the empty string and whose nonterminals do not already
include the literal `S'`, augmentation prepends exactly the one new
production `S' -> OriginalStart` and keeps all original productions
unchanged; augmentation aborts with an error (`none`) instead of
proceeding both on an empty grammar and when the first nonterminal is the
falsy empty string (the source's truthiness guard `if not start_symbol`,
reachable from the input line `-> a`).  (The freshness of `S'` must be
assumed: the source hardcodes the name, see the counterexample.) -/
theorem augment_grammar_amended :
    augment_grammar ([] : Grammar) = none ∧
      augment_grammar [(("") , [[("a")]])] = none ∧
      ∀ g : Grammar, g ≠ [] → firstKey g ≠ ("") → (keysG g).Nodup →
        augStart ∉ keysG g →
        augment_grammar g = some ((augStart, [[firstKey g]]) :: g) := by
  refine ⟨rfl, by decide, ?_⟩
  intro g hne hfk hnodup hfresh
  match g with
  | (k, ps) :: rest =>
    have hk : ¬ k = ("") := hfk
    show (if k = ("") then none else
        some (dictUpdate [(augStart, [[k]])] ((k, ps) :: rest))) = _
    rw [if_neg hk]
    rw [dictUpdate_disjoint ((k, ps) :: rest) [(augStart, [[k]])]]
    · simp [firstKey]
    · intro k2 hk2 hmem
      simp [keysG] at hmem
      subst hmem
      exact hfresh hk2
    · exact hnodup

/-- Witness for C5 (amended): augmenting `S -> a` prepends `S' -> S`. -/
theorem augment_grammar_amended_witness :
    augment_grammar [(("S"), [[("a")]])] =
      some [(augStart, [[("S")]]), (("S"), [[("a")]])] :=
  augment_grammar_amended.2.2 [(("S"), [[("a")]])] (by decide) (by decide)
    (by decide) (by decide)

/-- Counterexample to C5 as stated: the non-empty grammar `S' -> a`
already uses the synthetic start name, and augmentation returns it
*unchanged* — no new production is added (the fresh `S' -> S'` entry is
overwritten by `update`), and the start symbol does occur among the
original nonterminals. -/
theorem augment_grammar_cex :
    augment_grammar g5 = some g5 ∧ augStart ∈ keysG g5 := by decide

/-! ### FIRST and FOLLOW versus their least-fixpoint equations (C2, C3) -/

/-- C2: the memoized `compute_first` does *not* compute the least fixpoint
of the FIRST equations on mutually recursive grammars.  For the grammar
`A -> B | a`, `B -> A | b` (parsed from the very text format the app
accepts), the code returns `FIRST(B) = {b}`: while computing FIRST(A) the
cycle B → A hits the memo and reads A's still-empty partial set, and B's
set is then frozen before A later gains `a`.  The code's map violates the
FIRST equations (so it is not a fixpoint at all, let alone the least one),
whereas the map `FIRST(A) = FIRST(B) = {a, b}` satisfies them and contains
`a ∈ FIRST(B)`, which the code's map misses. -/
theorem compute_first_not_least_fixpoint :
    get_grammar ("A -> B | a\nB -> A | b") = ParseOutcome.ok g2 ∧
      alistLookup (first_map g2) ("B") = some [("b")] ∧
      alistLookup (first_map g2) ("A") = some [("b"), ("a")] ∧
      ¬ firstEquationsHold g2 (memoFun (first_map g2)) ∧
      firstEquationsHold g2 specFirst2 ∧
      (("a") ∈ specFirst2 ("B")) ∧
      (("a") ∉ memoFun (first_map g2) ("B")) := by decide

/-- C3: the memoized `compute_follow` does *not* compute the least
fixpoint of the FOLLOW equations.  For the grammar `S -> A | C`, `A -> B`,
`B -> A | b`, `C -> A c`, the code returns `FOLLOW(B) = {$}`: FOLLOW(B) is
computed from a memo hit on A's partial set before A gains `c` from the
production `C -> A c`.  The code's map violates the FOLLOW equations
(given the true FIRST sets, which the code gets right here), whereas
`FOLLOW(A) = FOLLOW(B) = {$, c}`, `FOLLOW(S) = FOLLOW(C) = {$}` satisfies
them.  The `$ ∈ FOLLOW(start)` part of the claim does hold on the code
(last conjunct). -/
theorem compute_follow_not_least_fixpoint :
    get_grammar ("S -> A | C\nA -> B\nB -> A | b\nC -> A c") = ParseOutcome.ok g3 ∧
      alistLookup (follow_map g3 (first_map g3)) ("B") = some [dollarStr] ∧
      firstEquationsHold g3 specFirst3 ∧
      followEquationsHold g3 specFirst3 specFollow3 ∧
      ¬ followEquationsHold g3 specFirst3 (memoFun (follow_map g3 (first_map g3))) ∧
      (("c") ∈ specFollow3 ("B")) ∧
      (("c") ∉ memoFun (follow_map g3 (first_map g3)) ("B")) ∧
      dollarStr ∈ memoFun (follow_map g3 (first_map g3)) ("S") := by decide

/-! ### The SLR(1) table builder's silent conflict overwrite (C1) -/

/-- C1: the table builder neither detects nor reports conflicts — its
return value carries only the action and goto dicts (see
`generate_slr1_parsing_table`), and a conflicting cell is silently
overwritten by whichever write comes last.  On `E -> E + E | id` the
automaton has a genuine shift/reduce conflict: in state 4 the transition
on `+` (shift to state 3) and the completed item `E -> E + E ·` with
`+ ∈ FOLLOW(E)` compete for cell (4, `+`); the built table holds only the
reduce action — the shift written first was silently replaced, and no
conflict report of any kind exists. -/
theorem slr_table_silent_conflict_overwrite :
    get_grammar ("E -> E + E | id") = ParseOutcome.ok g1 ∧
      augment_grammar g1 = some ag1 ∧
      alistLookup lr1.transitions (4, ("+")) = some 3 ∧
      ((("E"), [("E"), ("+"), ("E")], 3) ∈ lr1.states.getD 4 []) ∧
      (("+") ∈ (alistLookup (follow_map g1 (first_map g1)) ("E")).getD []) ∧
      alistLookup table1.1 (4, ("+")) = some (Action.reduce ("E") [("E"), ("+"), ("E")]) := by
  decide

/-! ### The literal-ε representation (C4) -/

/-- C4: on the sidebar's own example `S -> A B`, `A -> a | ε`, `B -> b`
with the epsilon alternative written as the literal `ε` token, the parser
keeps `ε` as an ordinary right-hand-side symbol (the RHS is `["ε"]`, not
the empty sequence), so the item `A -> · ε` in state 0 is not complete:
the table has *no* action at (0, b) — the claimed reduce by `A -> ε` on
lookahead `b` is absent — and the automaton instead records a shift on the
pseudo-terminal `ε` out of state 0.  The numeric FIRST/FOLLOW parts of
the claim do hold, but only by accident: `ε` enters `FIRST(A)` as an
ordinary terminal symbol. -/
theorem epsilon_literal_not_empty_rhs :
    get_grammar ("S -> A B\nA -> a | ε\nB -> b") = ParseOutcome.ok g4 ∧
      lookupG g4 ("A") = some [[("a")], [("ε")]] ∧
      augment_grammar g4 = some ag4 ∧
      ((("A"), [("ε")], 0) ∈ lr4.states.getD 0 []) ∧
      alistLookup (first_map g4) ("A") = some [("a"), ("ε")] ∧
      (("b") ∈ (alistLookup (follow_map g4 (first_map g4)) ("A")).getD []) ∧
      alistLookup table4.1 (0, ("b")) = none ∧
      alistLookup lr4.transitions (0, ("ε")) = some 4 ∧
      alistLookup table4.1 (0, ("ε")) = some (Action.shift 4) := by
  decide

/-! ### Closure is a fixpoint (C7) -/

/-- Lookup success means the entry is in the association list. -/
theorem lookupG_mem {g : Grammar} {k : String} {v : List Rhs}
    (h : lookupG g k = some v) : (k, v) ∈ g := by
  induction g with
  | nil => cases h
  | cons kv rest ih =>
    obtain ⟨k2, v2⟩ := kv
    by_cases hk : k2 = k
    · subst hk
      rw [lookupG, if_pos rfl] at h
      cases h
      exact List.mem_cons_self _ _
    · rw [lookupG, if_neg hk] at h
      exact List.mem_cons_of_mem _ (ih h)

/-- Everything `closure` can add has the dot at position 0 on a
production of the grammar. -/
theorem expansions_subset_initial {g : Grammar} {it x : Item}
    (h : x ∈ expansions g it) : x ∈ initialItems g := by
  unfold expansions at h
  rcases hns : nextSymbol it with _ | sym
  · simp [hns] at h
  · simp only [hns] at h
    rcases hlk : lookupG g sym with _ | prods
    · simp [hlk] at h
    · simp only [hlk] at h
      obtain ⟨p, hp, hx⟩ := List.mem_map.mp h
      subst hx
      unfold initialItems
      rw [List.mem_flatten]
      refine ⟨prods.map (fun p => (sym, p, 0)), ?_, List.mem_map_of_mem _ hp⟩
      exact List.mem_map_of_mem _ (lookupG_mem hlk)

/-- Membership in one pass's newly discovered items. -/
theorem mem_closureNew {g : Grammar} {S : ItemList} {x : Item} :
    x ∈ closureNew g S ↔ (∃ it ∈ S, x ∈ expansions g it) ∧ x ∉ S := by
  unfold closureNew
  rw [List.mem_dedup, List.mem_filter]
  simp only [decide_eq_true_eq, List.mem_flatten, List.mem_map]
  constructor
  · rintro ⟨⟨l, ⟨it, hit, rfl⟩, hx⟩, hnot⟩
    exact ⟨⟨it, hit, hx⟩, hnot⟩
  · rintro ⟨⟨it, hit, hx⟩, hnot⟩
    exact ⟨⟨expansions g it, ⟨it, hit, rfl⟩, hx⟩, hnot⟩

/-- The closure pass count is bounded by the candidates not yet added. -/
theorem closureMeasure_decrease {g : Grammar} {S : ItemList}
    (h : closureNew g S ≠ []) :
    closureMeasure g (S ++ closureNew g S) < closureMeasure g S := by
  obtain ⟨x, hx⟩ := List.exists_mem_of_ne_nil _ h
  have hchar := mem_closureNew.mp hx
  have hinit : x ∈ initialItems g := by
    obtain ⟨⟨it, _, hexp⟩, _⟩ := hchar
    exact expansions_subset_initial hexp
  unfold closureMeasure
  apply Finset.card_lt_card
  rw [Finset.ssubset_iff_of_subset]
  · refine ⟨x, ?_, ?_⟩
    · rw [Finset.mem_sdiff]
      exact ⟨List.mem_toFinset.mpr hinit, fun hmem => hchar.2 (List.mem_toFinset.mp hmem)⟩
    · rw [Finset.mem_sdiff]
      intro ⟨_, hnot⟩
      exact hnot (List.mem_toFinset.mpr (List.mem_append_right S hx))
  · intro y hy
    rw [Finset.mem_sdiff] at hy ⊢
    refine ⟨hy.1, fun hmem => hy.2 ?_⟩
    rw [List.mem_toFinset] at hmem ⊢
    exact List.mem_append_left _ hmem

/-- Once a pass discovers nothing, further fuel changes nothing. -/
theorem closureAux_stable {g : Grammar} (n : Nat) (S : ItemList)
    (h : closureNew g S = []) : closureAux g n S = S := by
  cases n with
  | zero => rfl
  | succ n => simp [closureAux, h]

/-- With fuel at least the measure, the result of the pass loop is
closed: one more pass discovers nothing. -/
theorem closureAux_closed {g : Grammar} :
    ∀ (n : Nat) (S : ItemList), closureMeasure g S ≤ n →
      closureNew g (closureAux g n S) = [] := by
  intro n
  induction n with
  | zero =>
    intro S hle
    have hzero : closureMeasure g S = 0 := Nat.le_zero.mp hle
    have hsub : (initialItems g).toFinset \ S.toFinset = ∅ :=
      Finset.card_eq_zero.mp hzero
    rw [show closureAux g 0 S = S from rfl]
    rw [List.eq_nil_iff_forall_not_mem]
    intro x hx
    have hchar := mem_closureNew.mp hx
    have hinit : x ∈ initialItems g := by
      obtain ⟨⟨it, _, hexp⟩, _⟩ := hchar
      exact expansions_subset_initial hexp
    have : x ∈ (initialItems g).toFinset \ S.toFinset := by
      rw [Finset.mem_sdiff]
      exact ⟨List.mem_toFinset.mpr hinit, fun hmem => hchar.2 (List.mem_toFinset.mp hmem)⟩
    rw [hsub] at this
    cases this
  | succ n ih =>
    intro S hle
    by_cases h : closureNew g S = []
    · rw [closureAux_stable _ _ h]
      exact h
    · have hstep : closureAux g (n + 1) S = closureAux g n (S ++ closureNew g S) := by
        simp [closureAux, h]
      rw [hstep]
      apply ih
      have := closureMeasure_decrease (g := g) (S := S) h
      omega

/-- The measure never exceeds the fuel `closure` supplies. -/
theorem closureMeasure_le_fuel (g : Grammar) (S : ItemList) :
    closureMeasure g S ≤ totalProds g + 1 := by
  unfold closureMeasure
  have h1 : ((initialItems g).toFinset \ S.toFinset).card ≤ (initialItems g).toFinset.card :=
    Finset.card_le_card (Finset.sdiff_subset)
  have h2 : (initialItems g).toFinset.card ≤ (initialItems g).length :=
    (initialItems g).toFinset_card_le
  have h3 : (initialItems g).length = totalProds g := by
    unfold initialItems totalProds
    rw [List.length_flatten]
    simp [List.map_map, Function.comp_def, List.length_map]
  omega

/-- The result of `closure` is closed: re-running the pass loop on it
discovers nothing. -/
theorem closure_closureNew_nil (g : Grammar) (S : ItemList) :
    closureNew g (closure g S) = [] :=
  closureAux_closed _ S (closureMeasure_le_fuel g S)

/-- C7: `closure` is idempotent — applying `closure` to an already-closed
item set returns it unchanged, so `closure(closure(S)) == closure(S)` for
every grammar and every item set. -/
theorem closure_idempotent (g : Grammar) (S : ItemList) :
    closure g (closure g S) = closure g S := by
  unfold closure
  exact closureAux_stable _ _ (closure_closureNew_nil g S)

/-! ### Closure as a least closed superset

These lemmas let two structurally equal item sets be interchanged under
`closure`, `goto` and `dotSymbols` — the set-identity view the worklist
construction relies on. -/

/-- The seed survives into the pass loop's result. -/
theorem mem_closureAux_self {g : Grammar} :
    ∀ (n : Nat) (S : ItemList) (x : Item), x ∈ S → x ∈ closureAux g n S := by
  intro n
  induction n with
  | zero => intro S x hx; exact hx
  | succ n ih =>
    intro S x hx
    by_cases h : closureNew g S = []
    · rw [closureAux_stable _ _ h]; exact hx
    · have hstep : closureAux g (n + 1) S = closureAux g n (S ++ closureNew g S) := by
        simp [closureAux, h]
      rw [hstep]
      exact ih _ x (List.mem_append_left _ hx)

/-- Everything in the pass loop's result is seed or a dot-0 item. -/
theorem closureAux_mem_or {g : Grammar} :
    ∀ (n : Nat) (S : ItemList) (x : Item), x ∈ closureAux g n S →
      x ∈ S ∨ x ∈ initialItems g := by
  intro n
  induction n with
  | zero => intro S x hx; exact Or.inl hx
  | succ n ih =>
    intro S x hx
    by_cases h : closureNew g S = []
    · rw [closureAux_stable _ _ h] at hx; exact Or.inl hx
    · have hstep : closureAux g (n + 1) S = closureAux g n (S ++ closureNew g S) := by
        simp [closureAux, h]
      rw [hstep] at hx
      rcases ih _ x hx with hmem | hinit
      · rcases List.mem_append.mp hmem with hS | hns
        · exact Or.inl hS
        · obtain ⟨⟨it, _, hexp⟩, _⟩ := mem_closureNew.mp hns
          exact Or.inr (expansions_subset_initial hexp)
      · exact Or.inr hinit

/-- The pass loop stays inside any closed superset of the seed. -/
theorem closureAux_minimal {g : Grammar} :
    ∀ (n : Nat) (S T : ItemList), (∀ x ∈ S, x ∈ T) → closedUnder g T →
      ∀ x ∈ closureAux g n S, x ∈ T := by
  intro n
  induction n with
  | zero => intro S T hsub _ x hx; exact hsub x hx
  | succ n ih =>
    intro S T hsub hclosed x hx
    by_cases h : closureNew g S = []
    · rw [closureAux_stable _ _ h] at hx; exact hsub x hx
    · have hstep : closureAux g (n + 1) S = closureAux g n (S ++ closureNew g S) := by
        simp [closureAux, h]
      rw [hstep] at hx
      refine ih _ T ?_ hclosed x hx
      intro y hy
      rcases List.mem_append.mp hy with hS | hns
      · exact hsub y hS
      · obtain ⟨⟨it, hit, hexp⟩, _⟩ := mem_closureNew.mp hns
        exact hclosed it (hsub it hit) y hexp

/-- An item set whose pass discovers nothing is closed under expansion. -/
theorem closedUnder_of_closureNew_nil {g : Grammar} {T : ItemList}
    (h : closureNew g T = []) : closedUnder g T := by
  intro it hit x hexp
  by_contra hnot
  have : x ∈ closureNew g T := mem_closureNew.mpr ⟨⟨it, hit, hexp⟩, hnot⟩
  rw [h] at this
  cases this

/-- `closure` results are closed under expansion. -/
theorem closure_closedUnder (g : Grammar) (S : ItemList) :
    closedUnder g (closure g S) :=
  closedUnder_of_closureNew_nil (closure_closureNew_nil g S)

/-- The seed survives into `closure`. -/
theorem mem_closure_self {g : Grammar} {S : ItemList} {x : Item}
    (hx : x ∈ S) : x ∈ closure g S :=
  mem_closureAux_self _ S x hx

/-- `closure` stays inside any closed superset of the seed. -/
theorem closure_minimal {g : Grammar} {S T : ItemList}
    (hsub : ∀ x ∈ S, x ∈ T) (hclosed : closedUnder g T) :
    ∀ x ∈ closure g S, x ∈ T :=
  closureAux_minimal _ S T hsub hclosed

/-- Structurally equal seeds have structurally equal closures. -/
theorem closure_ext {g : Grammar} {S T : ItemList}
    (h : S.toFinset = T.toFinset) :
    (closure g S).toFinset = (closure g T).toFinset := by
  have hmem : ∀ x : Item, x ∈ S ↔ x ∈ T := by
    intro x
    rw [← List.mem_toFinset, h, List.mem_toFinset]
  ext x
  simp only [List.mem_toFinset]
  constructor
  · intro hx
    exact closure_minimal (fun y hy => mem_closure_self ((hmem y).mp hy))
      (closure_closedUnder g T) x hx
  · intro hx
    exact closure_minimal (fun y hy => mem_closure_self ((hmem y).mpr hy))
      (closure_closedUnder g S) x hx

/-- Membership in the dot-advanced items. -/
theorem mem_shifted {S : ItemList} {sym : String} {x : Item} :
    x ∈ shifted S sym ↔
      ∃ it ∈ S, nextSymbol it = some sym ∧ x = (it.1, it.2.1, it.2.2 + 1) := by
  unfold shifted
  rw [List.mem_map]
  constructor
  · rintro ⟨it, hit, rfl⟩
    have := List.mem_filter.mp hit
    exact ⟨it, this.1, decide_eq_true_eq.mp this.2, rfl⟩
  · rintro ⟨it, hit, hns, rfl⟩
    exact ⟨it, List.mem_filter.mpr ⟨hit, decide_eq_true_eq.mpr hns⟩, rfl⟩

/-- Structurally equal item sets have structurally equal `goto` images. -/
theorem goto_ext {g : Grammar} {S T : ItemList} {sym : String}
    (h : S.toFinset = T.toFinset) :
    (goto g S sym).toFinset = (goto g T sym).toFinset := by
  have hmem : ∀ x : Item, x ∈ S ↔ x ∈ T := by
    intro x
    rw [← List.mem_toFinset, h, List.mem_toFinset]
  have hshift : ∀ x : Item, x ∈ shifted S sym ↔ x ∈ shifted T sym := by
    intro x
    rw [mem_shifted, mem_shifted]
    constructor
    · rintro ⟨it, hit, hns, rfl⟩; exact ⟨it, (hmem it).mp hit, hns, rfl⟩
    · rintro ⟨it, hit, hns, rfl⟩; exact ⟨it, (hmem it).mpr hit, hns, rfl⟩
  unfold goto
  by_cases hS : shifted S sym = []
  · have hT : shifted T sym = [] := by
      rw [List.eq_nil_iff_forall_not_mem]
      intro x hx
      rw [List.eq_nil_iff_forall_not_mem] at hS
      exact hS x ((hshift x).mpr hx)
    rw [if_pos hS, if_pos hT]
  · have hT : shifted T sym ≠ [] := by
      intro hT
      obtain ⟨x, hx⟩ := List.exists_mem_of_ne_nil _ hS
      rw [List.eq_nil_iff_forall_not_mem] at hT
      exact hT x ((hshift x).mp hx)
    rw [if_neg hS, if_neg hT]
    apply closure_ext
    ext x
    simp only [List.mem_toFinset]
    exact hshift x

/-- Membership in the dot symbols of a state. -/
theorem mem_dotSymbols {S : ItemList} {x : String} :
    x ∈ dotSymbols S ↔ ∃ it ∈ S, nextSymbol it = some x := by
  unfold dotSymbols
  rw [List.mem_dedup, List.mem_filterMap]

/-- Structurally equal item sets expose the same dot symbols. -/
theorem dotSymbols_ext_mem {S T : ItemList} (h : S.toFinset = T.toFinset)
    {x : String} (hx : x ∈ dotSymbols S) : x ∈ dotSymbols T := by
  have hmem : ∀ y : Item, y ∈ S ↔ y ∈ T := by
    intro y
    rw [← List.mem_toFinset, h, List.mem_toFinset]
  obtain ⟨it, hit, hns⟩ := mem_dotSymbols.mp hx
  exact mem_dotSymbols.mpr ⟨it, (hmem it).mp hit, hns⟩

/-! ### The item universe bounds everything the construction builds -/

/-- Characterization of the item universe. -/
theorem mem_itemUniverse {g : Grammar} {x : Item} :
    x ∈ itemUniverse g ↔
      ∃ kv ∈ g, ∃ p ∈ kv.2, ∃ d, d ≤ p.length ∧ x = (kv.1, p, d) := by
  unfold itemUniverse
  rw [List.mem_toFinset, List.mem_flatten]
  constructor
  · rintro ⟨l, hl, hx⟩
    obtain ⟨kv, hkv, rfl⟩ := List.mem_map.mp hl
    rw [List.mem_flatten] at hx
    obtain ⟨l2, hl2, hx2⟩ := hx
    obtain ⟨p, hp, rfl⟩ := List.mem_map.mp hl2
    obtain ⟨d, hd, rfl⟩ := List.mem_map.mp hx2
    exact ⟨kv, hkv, p, hp, d, Nat.lt_succ_iff.mp (List.mem_range.mp hd), rfl⟩
  · rintro ⟨kv, hkv, p, hp, d, hd, rfl⟩
    refine ⟨(kv.2.map (fun p => (List.range (p.length + 1)).map (fun d => (kv.1, p, d)))).flatten,
      List.mem_map_of_mem _ hkv, ?_⟩
    rw [List.mem_flatten]
    refine ⟨(List.range (p.length + 1)).map (fun d => (kv.1, p, d)),
      List.mem_map_of_mem _ hp, ?_⟩
    exact List.mem_map_of_mem _ (List.mem_range.mpr (Nat.lt_succ_iff.mpr hd))

/-- Dot-0 items live in the universe. -/
theorem initialItems_subset_universe {g : Grammar} {x : Item}
    (h : x ∈ initialItems g) : x ∈ itemUniverse g := by
  unfold initialItems at h
  rw [List.mem_flatten] at h
  obtain ⟨l, hl, hx⟩ := h
  obtain ⟨kv, hkv, rfl⟩ := List.mem_map.mp hl
  obtain ⟨p, hp, rfl⟩ := List.mem_map.mp hx
  exact mem_itemUniverse.mpr ⟨kv, hkv, p, hp, 0, Nat.zero_le _, rfl⟩

/-- Advancing the dot of a universe item with room to move stays in the
universe. -/
theorem advance_in_universe {g : Grammar} {it : Item}
    (h : it ∈ itemUniverse g) (hlt : it.2.2 < it.2.1.length) :
    (it.1, it.2.1, it.2.2 + 1) ∈ itemUniverse g := by
  obtain ⟨kv, hkv, p, hp, d, _, rfl⟩ := mem_itemUniverse.mp h
  exact mem_itemUniverse.mpr ⟨kv, hkv, p, hp, d + 1, hlt, rfl⟩

/-- `goto` of a universe-contained state is universe-contained. -/
theorem goto_subset_universe {g : Grammar} {S : ItemList} {sym : String}
    (hS : ∀ it ∈ S, it ∈ itemUniverse g) :
    ∀ x ∈ goto g S sym, x ∈ itemUniverse g := by
  intro x hx
  unfold goto at hx
  by_cases h : shifted S sym = []
  · rw [if_pos h] at hx; cases hx
  · rw [if_neg h] at hx
    rcases closureAux_mem_or _ _ x hx with hsh | hinit
    · obtain ⟨it, hit, hns, rfl⟩ := mem_shifted.mp hsh
      have hdot : it.2.2 < it.2.1.length := by
        unfold nextSymbol at hns
        by_cases hc : it.2.2 < it.2.1.length
        · exact hc
        · rw [if_neg hc] at hns; cases hns
      exact advance_in_universe (hS it hit) hdot
    · exact initialItems_subset_universe hinit

/-- State 0 is universe-contained as soon as the initial item is. -/
theorem initState_subset_universe {g : Grammar}
    (hg : initItem g ∈ itemUniverse g) :
    ∀ x ∈ initState g, x ∈ itemUniverse g := by
  intro x hx
  rcases closureAux_mem_or _ _ x hx with hseed | hinit
  · have : x = initItem g := by simpa using hseed
    rw [this]; exact hg
  · exact initialItems_subset_universe hinit

/-! ### The `state_indices` dict mirrors the states list -/

/-- Appending a state appends its index entry. -/
theorem idxMap_append :
    ∀ (l : List ItemList) (n : Nat) (x : ItemList),
      idxMap n (l ++ [x]) = idxMap n l ++ [(x.toFinset, n + l.length)] := by
  intro l
  induction l with
  | nil => intro n x; simp [idxMap]
  | cons s rest ih =>
    intro n x
    show (s.toFinset, n) :: idxMap (n + 1) (rest ++ [x]) =
      (s.toFinset, n) :: (idxMap (n + 1) rest ++ [(x.toFinset, n + (s :: rest).length)])
    rw [ih (n + 1) x]
    have harith : n + 1 + rest.length = n + (s :: rest).length := by
      simp only [List.length_cons]
      omega
    rw [harith]

/-- A failed index lookup means no state has that frozenset. -/
theorem lookup_idxMap_none :
    ∀ (l : List ItemList) (n : Nat) (F : Finset Item),
      alistLookup (idxMap n l) F = none → F ∉ l.map List.toFinset := by
  intro l
  induction l with
  | nil => intro n F _ h; simp at h
  | cons s rest ih =>
    intro n F hlk hmem
    rw [idxMap, alistLookup] at hlk
    by_cases hF : s.toFinset = F
    · rw [if_pos hF] at hlk; cases hlk
    · rw [if_neg hF] at hlk
      rw [List.map_cons, List.mem_cons] at hmem
      rcases hmem with heq | htail
      · exact hF heq.symm
      · exact ih (n + 1) F hlk htail

/-- A successful index lookup names a structurally equal state. -/
theorem lookup_idxMap_some :
    ∀ (l : List ItemList) (n : Nat) (F : Finset Item) (i : Nat),
      alistLookup (idxMap n l) F = some i → ∃ T ∈ l, T.toFinset = F := by
  intro l
  induction l with
  | nil => intro n F i h; simp [idxMap, alistLookup] at h
  | cons s rest ih =>
    intro n F i hlk
    rw [idxMap, alistLookup] at hlk
    by_cases hF : s.toFinset = F
    · exact ⟨s, List.mem_cons_self _ _, hF⟩
    · rw [if_neg hF] at hlk
      obtain ⟨T, hT, hTF⟩ := ih (n + 1) F i hlk
      exact ⟨T, List.mem_cons_of_mem _ hT, hTF⟩

/-- The frozenset of an index entry belongs to the states list. -/
theorem idxMap_mem_fst :
    ∀ (l : List ItemList) (n : Nat) (F : Finset Item) (i : Nat),
      (F, i) ∈ idxMap n l → F ∈ l.map List.toFinset := by
  intro l
  induction l with
  | nil => intro n F i h; cases h
  | cons s rest ih =>
    intro n F i h
    rcases List.mem_cons.mp h with heq | htail
    · injection heq with h1 _
      simp [h1.symm]
    · simpa using Or.inr (by simpa using ih (n + 1) F i htail)

/-- With duplicate-free frozensets, each frozenset has one index: two
states with the same item set always get the same state id. -/
theorem idxMap_functional :
    ∀ (l : List ItemList) (n : Nat), (l.map List.toFinset).Nodup →
      ∀ (F : Finset Item) (i j : Nat),
        (F, i) ∈ idxMap n l → (F, j) ∈ idxMap n l → i = j := by
  intro l
  induction l with
  | nil => intro n _ F i j h; cases h
  | cons s rest ih =>
    intro n hnodup F i j hi hj
    rw [List.map_cons] at hnodup
    have hnd := List.nodup_cons.mp hnodup
    rcases List.mem_cons.mp hi with heqi | htaili
    · injection heqi with hF hi2
      rcases List.mem_cons.mp hj with heqj | htailj
      · injection heqj with _ hj2
        rw [hi2, hj2]
      · exact absurd (hF ▸ idxMap_mem_fst rest (n + 1) F j htailj) hnd.1
    · rcases List.mem_cons.mp hj with heqj | htailj
      · injection heqj with hF _
        exact absurd (hF ▸ idxMap_mem_fst rest (n + 1) F i htaili) hnd.1
      · exact ih (n + 1) hnd.2 F i j htaili htailj

/-! ### Dict-write lemmas for the transitions table -/

/-- The keys after a dict write: unchanged if present, appended if new. -/
theorem alistSet_keys {κ β : Type} [DecidableEq κ] :
    ∀ (l : List (κ × β)) (k : κ) (v : β),
      (alistSet l k v).map Prod.fst =
        if k ∈ l.map Prod.fst then l.map Prod.fst else l.map Prod.fst ++ [k] := by
  intro l
  induction l with
  | nil => intro k v; simp [alistSet]
  | cons kv rest ih =>
    intro k v
    obtain ⟨k2, v2⟩ := kv
    by_cases hk : k2 = k
    · subst hk
      simp [alistSet]
    · have hne : ¬k = k2 := fun hh => hk hh.symm
      rw [alistSet, if_neg hk]
      by_cases hmem : k ∈ rest.map Prod.fst
      · simp [ih, hmem, hne]
      · simp [ih, hmem, hne]

/-- Dict writes keep the keys duplicate-free. -/
theorem alistSet_keys_nodup {κ β : Type} [DecidableEq κ]
    {l : List (κ × β)} (h : (l.map Prod.fst).Nodup) (k : κ) (v : β) :
    ((alistSet l k v).map Prod.fst).Nodup := by
  rw [alistSet_keys]
  by_cases hmem : k ∈ l.map Prod.fst
  · rwa [if_pos hmem]
  · rw [if_neg hmem]
    simp [List.nodup_append, h, hmem]

/-- Duplicate-free keys make the dict functional: at most one value is
recorded per key. -/
theorem keys_nodup_functional {κ β : Type} [DecidableEq κ] :
    ∀ (l : List (κ × β)), (l.map Prod.fst).Nodup →
      ∀ (k : κ) (v1 v2 : β), (k, v1) ∈ l → (k, v2) ∈ l → v1 = v2 := by
  intro l
  induction l with
  | nil => intro _ k v1 v2 h; cases h
  | cons kv rest ih =>
    intro hnodup k v1 v2 h1 h2
    rw [List.map_cons] at hnodup
    have hnd := List.nodup_cons.mp hnodup
    rcases List.mem_cons.mp h1 with heq1 | htail1
    · rcases List.mem_cons.mp h2 with heq2 | htail2
      · rw [← heq1] at heq2
        injection heq2 with _ hv
        exact hv.symm
      · exfalso
        have hk : k = kv.1 := by rw [← heq1]
        exact hnd.1 (hk ▸ List.mem_map.mpr ⟨(k, v2), htail2, rfl⟩)
    · rcases List.mem_cons.mp h2 with heq2 | htail2
      · exfalso
        have hk : k = kv.1 := by rw [← heq2]
        exact hnd.1 (hk ▸ List.mem_map.mpr ⟨(k, v1), htail1, rfl⟩)
      · exact ih hnd.2 k v1 v2 htail1 htail2

/-! ### One symbol-processing step preserves the invariant -/

/-- `processSym` only appends, and appends the same states to the states
list and the queue. -/
theorem processSym_states (g : Grammar) (curIdx : Nat) (cur : ItemList)
    (st : LrState) (sym : String) :
    ∃ app : List ItemList,
      (processSym g curIdx cur st sym).states = st.states ++ app ∧
        (processSym g curIdx cur st sym).queue = st.queue ++ app := by
  unfold processSym
  cases hlk : alistLookup st.indices (goto g cur sym).toFinset with
  | some i => exact ⟨[], by simp⟩
  | none => exact ⟨[goto g cur sym], rfl, rfl⟩

/-- Processing one symbol of the popped state `cur` preserves the
mid-processing invariant and makes the `goto` target of that symbol
present (up to structural equality) among the states. -/
theorem processSym_mid {g : Grammar} {cur : ItemList} {st : LrState}
    (curIdx : Nat) (sym : String) (hinv : LrInvMid g cur st) :
    LrInvMid g cur (processSym g curIdx cur st sym) ∧
      ∃ T ∈ (processSym g curIdx cur st sym).states,
        T.toFinset = (goto g cur sym).toFinset := by
  cases hlk : alistLookup st.indices (goto g cur sym).toFinset with
  | some i =>
    have hps : processSym g curIdx cur st sym =
        { st with transitions := alistSet st.transitions (curIdx, sym) i } := by
      unfold processSym
      rw [hlk]
    rw [hps]
    refine ⟨?_, ?_⟩
    · exact { idxOK := hinv.idxOK, nodupF := hinv.nodupF, subU := hinv.subU,
              queueSub := hinv.queueSub, closedDone := hinv.closedDone,
              keysND := alistSet_keys_nodup hinv.keysND _ _,
              initMem := hinv.initMem, curMem := hinv.curMem }
    · rw [hinv.idxOK] at hlk
      exact lookup_idxMap_some _ _ _ _ hlk
  | none =>
    have hps : processSym g curIdx cur st sym =
        { states := st.states ++ [goto g cur sym]
          indices := st.indices ++ [((goto g cur sym).toFinset, st.states.length)]
          transitions := alistSet st.transitions (curIdx, sym) st.states.length
          queue := st.queue ++ [goto g cur sym] } := by
      unfold processSym
      rw [hlk]
    rw [hps]
    have hnotin : (goto g cur sym).toFinset ∉ st.states.map List.toFinset := by
      rw [hinv.idxOK] at hlk
      exact lookup_idxMap_none _ _ _ hlk
    refine ⟨?_, ?_⟩
    · refine { idxOK := ?_, nodupF := ?_, subU := ?_, queueSub := ?_,
               closedDone := ?_, keysND := ?_, initMem := ?_, curMem := ?_ }
      · show st.indices ++ [((goto g cur sym).toFinset, st.states.length)] =
          idxMap 0 (st.states ++ [goto g cur sym])
        rw [hinv.idxOK, idxMap_append]
        simp
      · show ((st.states ++ [goto g cur sym]).map List.toFinset).Nodup
        rw [List.map_append]
        rw [List.nodup_append]
        refine ⟨hinv.nodupF, by simp, ?_⟩
        intro F hF
        simp only [List.map_cons, List.map_nil, List.mem_singleton]
        intro hFeq
        exact hnotin (hFeq ▸ hF)
      · intro S hS it hit
        rcases List.mem_append.mp hS with hold | hnew
        · exact hinv.subU S hold it hit
        · have hSe : S = goto g cur sym := by simpa using hnew
          subst hSe
          exact goto_subset_universe (hinv.subU cur hinv.curMem) it hit
      · intro q hq
        rcases List.mem_append.mp hq with hold | hnew
        · exact List.mem_append_left _ (hinv.queueSub q hold)
        · exact List.mem_append_right _ hnew
      · intro S hS hSq
        have hSq1 : S ∉ st.queue := fun hh => hSq (List.mem_append_left _ hh)
        rcases List.mem_append.mp hS with hold | hnew
        · rcases hinv.closedDone S hold hSq1 with hc | htargets
          · exact Or.inl hc
          · refine Or.inr (fun sy hsy => ?_)
            obtain ⟨T, hT, hTF⟩ := htargets sy hsy
            exact ⟨T, List.mem_append_left _ hT, hTF⟩
        · exfalso
          have hSe : S = goto g cur sym := by simpa using hnew
          exact hSq (List.mem_append_right _ (by rw [hSe]; exact List.mem_singleton_self _))
      · exact alistSet_keys_nodup hinv.keysND _ _
      · exact List.mem_append_left _ hinv.initMem
      · exact List.mem_append_left _ hinv.curMem
    · exact ⟨goto g cur sym, List.mem_append_right _ (List.mem_singleton_self _), rfl⟩

/-- Folding over a symbol list preserves the mid-processing invariant,
records a structurally equal state for every processed symbol's `goto`
target, and appends the same new states to states and queue. -/
theorem foldl_processSym_inv {g : Grammar} {cur : ItemList} (curIdx : Nat) :
    ∀ (syms : List String) (st : LrState), LrInvMid g cur st →
      LrInvMid g cur (syms.foldl (processSym g curIdx cur) st) ∧
        (∀ sym ∈ syms, ∃ T ∈ (syms.foldl (processSym g curIdx cur) st).states,
          T.toFinset = (goto g cur sym).toFinset) ∧
        ∃ app, (syms.foldl (processSym g curIdx cur) st).states = st.states ++ app ∧
          (syms.foldl (processSym g curIdx cur) st).queue = st.queue ++ app := by
  intro syms
  induction syms with
  | nil =>
    intro st hinv
    exact ⟨hinv, by simp, [], by simp, by simp⟩
  | cons sym rest ih =>
    intro st hinv
    simp only [List.foldl_cons]
    obtain ⟨hinv1, T0, hT0, hT0F⟩ := processSym_mid curIdx sym hinv
    obtain ⟨app0, happ0s, happ0q⟩ := processSym_states g curIdx cur st sym
    obtain ⟨hinv2, htargets, app1, happ1s, happ1q⟩ :=
      ih (processSym g curIdx cur st sym) hinv1
    refine ⟨hinv2, ?_, app0 ++ app1, ?_, ?_⟩
    · intro sy hsy
      rcases List.mem_cons.mp hsy with heq | htail
      · subst heq
        refine ⟨T0, ?_, hT0F⟩
        rw [happ1s]
        exact List.mem_append_left _ hT0
      · exact htargets sy htail
    · rw [happ1s, happ0s, List.append_assoc]
    · rw [happ1q, happ0q, List.append_assoc]

/-- Distinct universe-contained states are at most `2 ^ |universe|`
many. -/
theorem states_length_le {g : Grammar} {states : List ItemList}
    (hnodup : (states.map List.toFinset).Nodup)
    (hsub : ∀ S ∈ states, ∀ it ∈ S, it ∈ itemUniverse g) :
    states.length ≤ 2 ^ (itemUniverse g).card := by
  have h1 : (states.map List.toFinset).toFinset.card = (states.map List.toFinset).length :=
    List.toFinset_card_of_nodup hnodup
  have h2 : (states.map List.toFinset).toFinset ⊆ (itemUniverse g).powerset := by
    intro F hF
    rw [List.mem_toFinset] at hF
    obtain ⟨S, hS, rfl⟩ := List.mem_map.mp hF
    rw [Finset.mem_powerset]
    intro it hit
    exact hsub S hS it (List.mem_toFinset.mp hit)
  have h3 := Finset.card_le_card h2
  rw [Finset.card_powerset, h1, List.length_map] at h3
  exact h3

/-- The worklist loop, given enough fuel, maintains the invariant and
drains its queue: each iteration pops one entry and enqueues only freshly
discovered states, so the measure
`2·(2^|universe| − |states|) + |queue|` strictly decreases. -/
theorem bfs_loop_maintains {g : Grammar} :
    ∀ (n : Nat) (st : LrState), LrInv g st →
      2 * (2 ^ (itemUniverse g).card - st.states.length) + st.queue.length ≤ n →
      LrInv g (bfsLoop g n st) ∧ (bfsLoop g n st).queue = [] := by
  intro n
  induction n with
  | zero =>
    intro st hinv hm
    have hq : st.queue.length = 0 := by omega
    exact ⟨hinv, List.length_eq_zero.mp hq⟩
  | succ n ih =>
    intro st hinv hm
    cases hq : st.queue with
    | nil =>
      have hstop : bfsLoop g (n + 1) st = st := by
        simp only [bfsLoop]
        rw [hq]
      rw [hstop]
      exact ⟨hinv, hq⟩
    | cons cur rest =>
      have hcur : cur ∈ st.states := hinv.queueSub cur (by rw [hq]; exact List.mem_cons_self _ _)
      have hinvmid : LrInvMid g cur { st with queue := rest } := by
        refine { idxOK := hinv.idxOK, nodupF := hinv.nodupF, subU := hinv.subU,
                 queueSub := ?_, closedDone := ?_, keysND := hinv.keysND,
                 initMem := hinv.initMem, curMem := hcur }
        · intro q hqm
          exact hinv.queueSub q (by rw [hq]; exact List.mem_cons_of_mem _ hqm)
        · intro S hS hSq
          by_cases hSc : S = cur
          · exact Or.inl hSc
          · refine Or.inr ?_
            have hSnot : S ∉ st.queue := by
              rw [hq]
              intro hmem
              rcases List.mem_cons.mp hmem with heq | htail
              · exact hSc heq
              · exact hSq htail
            exact hinv.closedDone S hS hSnot
      obtain ⟨hinv2mid, htargets, app, happs, happq⟩ :=
        foldl_processSym_inv ((alistLookup st.indices cur.toFinset).getD 0)
          (dotSymbols cur) { st with queue := rest } hinvmid
      have hinv2 : LrInv g ((dotSymbols cur).foldl
          (processSym g ((alistLookup st.indices cur.toFinset).getD 0) cur)
          { st with queue := rest }) := by
        refine { idxOK := hinv2mid.idxOK, nodupF := hinv2mid.nodupF,
                 subU := hinv2mid.subU, queueSub := hinv2mid.queueSub,
                 closedDone := ?_, keysND := hinv2mid.keysND,
                 initMem := hinv2mid.initMem }
        intro S hS hSq
        rcases hinv2mid.closedDone S hS hSq with hc | ht
        · intro sym hsym
          subst hc
          exact htargets sym hsym
        · exact ht
      have hlen2 := states_length_le hinv2.nodupF hinv2.subU
      have hm2 : 2 * (2 ^ (itemUniverse g).card -
            ((dotSymbols cur).foldl
              (processSym g ((alistLookup st.indices cur.toFinset).getD 0) cur)
              { st with queue := rest }).states.length) +
          ((dotSymbols cur).foldl
            (processSym g ((alistLookup st.indices cur.toFinset).getD 0) cur)
            { st with queue := rest }).queue.length ≤ n := by
        have e1 : ((dotSymbols cur).foldl
            (processSym g ((alistLookup st.indices cur.toFinset).getD 0) cur)
            { st with queue := rest }).states.length = st.states.length + app.length := by
          rw [happs]
          simp
        have e2 : ((dotSymbols cur).foldl
            (processSym g ((alistLookup st.indices cur.toFinset).getD 0) cur)
            { st with queue := rest }).queue.length = rest.length + app.length := by
          rw [happq]
          simp
        have e3 : st.queue.length = rest.length + 1 := by rw [hq]; simp
        rw [e1] at hlen2 ⊢
        rw [e2]
        omega
      have hunfold : bfsLoop g (n + 1) st = bfsLoop g n
          ((dotSymbols cur).foldl
            (processSym g ((alistLookup st.indices cur.toFinset).getD 0) cur)
            { st with queue := rest }) := by
        simp only [bfsLoop]
        rw [hq]
      rw [hunfold]
      exact ih _ hinv2 hm2

/-- When the queue has drained, every reachable state has a structurally
equal representative among the enumerated states. -/
theorem bfs_complete {g : Grammar} {st : LrState} (hinv : LrInv g st)
    (hq : st.queue = []) :
    ∀ S, ReachesL g S → ∃ T ∈ st.states, T.toFinset = S.toFinset := by
  intro S hS
  induction hS with
  | base => exact ⟨initState g, hinv.initMem, rfl⟩
  | step S0 sym hR hsym ih =>
    obtain ⟨T, hT, hTF⟩ := ih
    have hTnotq : T ∉ st.queue := by rw [hq]; exact List.not_mem_nil T
    have hsymT : sym ∈ dotSymbols T := dotSymbols_ext_mem hTF.symm hsym
    obtain ⟨U, hU, hUF⟩ := hinv.closedDone T hT hTnotq sym hsymT
    refine ⟨U, hU, ?_⟩
    rw [hUF]
    exact goto_ext hTF

/-- C6: for every augmented grammar (any grammar whose start nonterminal
has at least one production — equivalently, whose initial item is a real
item of the grammar), the worklist construction is deterministic and
complete: (i) the enumerated states are pairwise distinct as item sets,
so every state is enumerated exactly once; (ii) the transitions dict
records at most one target per (state, symbol); (iii) every state
reachable from state 0 by `goto` steps has a structurally equal
enumerated state; (iv) the `state_indices` dict assigns structurally
equal item sets the same state id. -/
theorem generate_lr0_items_ok (g : Grammar)
    (hg : initItem g ∈ itemUniverse g) :
    ((generate_lr0_items g).states.map List.toFinset).Nodup ∧
      (∀ (k : Nat × String) (j1 j2 : Nat),
        (k, j1) ∈ (generate_lr0_items g).transitions →
        (k, j2) ∈ (generate_lr0_items g).transitions → j1 = j2) ∧
      (∀ S, ReachesL g S →
        ∃ T ∈ (generate_lr0_items g).states, T.toFinset = S.toFinset) ∧
      (∀ (F : Finset Item) (i j : Nat),
        (F, i) ∈ (generate_lr0_items g).indices →
        (F, j) ∈ (generate_lr0_items g).indices → i = j) := by
  have hinit : LrInv g ⟨[initState g], [((initState g).toFinset, 0)], [], [initState g]⟩ := by
    refine { idxOK := rfl, nodupF := by simp, subU := ?_, queueSub := ?_,
             closedDone := ?_, keysND := by simp, initMem := List.mem_singleton_self _ }
    · intro S hS it hit
      have hSe : S = initState g := by simpa using hS
      subst hSe
      exact initState_subset_universe hg it hit
    · intro q hqm
      exact hqm
    · intro S hS hSq
      exact absurd hS hSq
  have hm : 2 * (2 ^ (itemUniverse g).card -
      ([initState g] : List ItemList).length) +
      ([initState g] : List ItemList).length ≤ lrFuel g := by
    unfold lrFuel
    simp only [List.length_singleton]
    omega
  have hmain := bfs_loop_maintains (lrFuel g) _ hinit hm
  have hgen : generate_lr0_items g =
      bfsLoop g (lrFuel g) ⟨[initState g], [((initState g).toFinset, 0)], [], [initState g]⟩ := rfl
  rw [hgen]
  refine ⟨hmain.1.nodupF, ?_, ?_, ?_⟩
  · intro k j1 j2 h1 h2
    exact keys_nodup_functional _ hmain.1.keysND k j1 j2 h1 h2
  · exact bfs_complete hmain.1 hmain.2
  · intro F i j h1 h2
    rw [hmain.1.idxOK] at h1 h2
    exact idxMap_functional _ 0 hmain.1.nodupF F i j h1 h2

/-- Witness for C6: the augmented nullable grammar `ag4` satisfies the
hypothesis and hence all four conclusions. -/
theorem generate_lr0_items_ok_witness :
    (initItem ag4 ∈ itemUniverse ag4) ∧
      (((generate_lr0_items ag4).states.map List.toFinset).Nodup ∧
        (∀ (k : Nat × String) (j1 j2 : Nat),
          (k, j1) ∈ (generate_lr0_items ag4).transitions →
          (k, j2) ∈ (generate_lr0_items ag4).transitions → j1 = j2) ∧
        (∀ S, ReachesL ag4 S →
          ∃ T ∈ (generate_lr0_items ag4).states, T.toFinset = S.toFinset) ∧
        (∀ (F : Finset Item) (i j : Nat),
          (F, i) ∈ (generate_lr0_items ag4).indices →
          (F, j) ∈ (generate_lr0_items ag4).indices → i = j)) :=
  ⟨by decide, generate_lr0_items_ok ag4 (by decide)⟩

end SLR
